import Mathlib

/-!
Verification of the fingerprinting and matching engine of the shazam-app
repository (`src/fingerprint.py`).

The Python code is shallowly embedded as follows.

* Python `dict`s (the inverted index `hash_table`, the `metadata` map and
  the nested `votes` histograms) preserve insertion order, look keys up by
  equality, and `setdefault` appends a fresh key at the end while leaving
  an existing key in place.  They are modelled as association lists
  (`List (key × value)`) with `alist_get` (first match, like `dict.get`)
  and `alist_update` (in-place update of the first occurrence, append of a
  missing key at the end).
* Machine integers: all quantities are Python/NumPy integers; frequency
  and time bins and vote counts are nonnegative (`Nat`), the offset
  difference `db_offset - offset` and the time delta `dt` are signed
  (`Int`).  Python's `dt & 0xFFF` on a (possibly negative) int is the
  nonnegative residue `dt mod 4096`, embedded as `mask12`.
* The spectrogram / peak-picking front end (`_compute_constellation_map`,
  scipy STFT over floating point audio) is not embeddable; where a claim
  needs the full `add_track`/`recognise` entry points it enters as an
  explicit function argument `constellation : List Float → Int → List Peak`,
  exactly the role the source gives it (both entry points call it on the
  decoded audio and feed its peaks to `_generate_hashes`).
-/

/-- A spectrogram peak `(time_index, frequency_index)` as produced by
`_compute_constellation_map` (fingerprint.py line 99: rows are
`(time_idx, freq_idx)`). -/
abbrev Peak := Nat × Nat

/-- Posting lists: `hash_table` maps a token to a list of
`(track_id, offset)` pairs (fingerprint.py line 171). -/
abbrev Postings := List (Nat × Nat)

/-- The inverted index `token → postings`, a Python dict in the source. -/
abbrev HashTable := List (Nat × Postings)

/-- The vote accumulator of `recognise` (fingerprint.py line 254):
`track_id → (offset difference → count)`, dicts of dicts in the source. -/
abbrev Votes := List (Nat × List (Int × Nat))

/-- Python `dict.get k`: the value at the first occurrence of the key,
`none` when absent. -/
def alist_get {κ β : Type} [DecidableEq κ] : List (κ × β) → κ → Option β
  | [], _ => none
  | (k, v) :: rest, k' => if k' = k then some v else alist_get rest k'

/-- Update of a Python dict at one key: an existing key keeps its position
and its value becomes `f (some old)`; a missing key is appended at the end
with value `f none`.  This is the net effect of the source's
`setdefault`-then-mutate patterns (fingerprint.py lines 213 and 261-262). -/
def alist_update {κ β : Type} [DecidableEq κ] (k : κ) (f : Option β → β) :
    List (κ × β) → List (κ × β)
  | [] => [(k, f none)]
  | (k', v) :: rest =>
    if k = k' then (k', f (some v)) :: rest else (k', v) :: alist_update k f rest

/-- Python's `dt & 0xFFF` on a signed integer: the nonnegative residue of
`dt` modulo `2 ^ 12` (fingerprint.py line 153). -/
def mask12 (dt : Int) : Nat := (dt % 4096).toNat

/-- The 32-bit token packed on fingerprint.py line 153:
`(anchor_freq & 0x3FF) << 22 | (target_freq & 0x3FF) << 12 | (dt & 0xFFF)`. -/
def hashToken (anchor_freq target_freq : Nat) (dt : Int) : Nat :=
  ((anchor_freq &&& 0x3FF) <<< 22) ||| ((target_freq &&& 0x3FF) <<< 12) ||| mask12 dt

/-- Insertion of a peak into a list sorted by ascending time bin. -/
def insert_peak (p : Peak) : List Peak → List Peak
  | [] => [p]
  | q :: rest => if p.1 ≤ q.1 then p :: q :: rest else q :: insert_peak p rest

/-- `peaks[np.argsort(peaks[:, 0])]` (fingerprint.py line 135): the peak
list reordered by ascending time bin.  NumPy's default `argsort` is an
unstable sort, so the source fixes no particular order among equal time
bins; an insertion sort by time realises one such reordering. -/
def sort_peaks : List Peak → List Peak
  | [] => []
  | p :: rest => insert_peak p (sort_peaks rest)

/-- The inner pairing loop of `_generate_hashes` (fingerprint.py lines
141-154) for one anchor `a`: `cands` is the list of peaks after the anchor
and `fuel` the remaining number of iterations of `j` (starting at
`fan_value`).  Running past the end of the peak list stops the anchor
(`break` via `i + j >= len(peaks)`), `dt < min_time_delta` skips the
candidate (`continue`), `dt > max_time_delta` stops the anchor (`break`),
and otherwise `(hash_val, anchor_time)` is emitted. -/
def emit_for_anchor (min_dt max_dt : Int) (a : Peak) : List Peak → Nat → List (Nat × Nat)
  | _, 0 => []
  | [], _ + 1 => []
  | t :: rest, fuel + 1 =>
    let dt : Int := (t.1 : Int) - (a.1 : Int)
    if dt < min_dt then emit_for_anchor min_dt max_dt a rest fuel
    else if max_dt < dt then []
    else (hashToken a.2 t.2 dt, a.1) :: emit_for_anchor min_dt max_dt a rest fuel

/-- The outer anchor loop of `_generate_hashes` (fingerprint.py line 138):
every position of the (sorted) peak list serves as an anchor, paired with
the peaks that follow it. -/
def gen_loop (fan : Nat) (min_dt max_dt : Int) : List Peak → List (Nat × Nat)
  | [] => []
  | a :: rest => emit_for_anchor min_dt max_dt a rest fan ++ gen_loop fan min_dt max_dt rest

/-- `_generate_hashes(peaks, fan_value, min_time_delta, max_time_delta)`
(fingerprint.py lines 103-155); the source defaults are
`fan_value = 10`, `min_time_delta = 0`, `max_time_delta = 200`. -/
def generate_hashes (fan : Nat) (min_dt max_dt : Int) (peaks : List Peak) :
    List (Nat × Nat) :=
  gen_loop fan min_dt max_dt (sort_peaks peaks)

/-- The three fields of `FingerprintDB` (fingerprint.py lines 170-173). -/
structure FingerprintDB where
  hash_table : HashTable
  metadata : List (Nat × String)
  next_track_id : Nat
deriving DecidableEq

/-- `FingerprintDB.__init__`: empty index, empty metadata, counter 0. -/
def FingerprintDB.empty : FingerprintDB := ⟨[], [], 0⟩

/-- `self.hash_table.setdefault(h, []).append((track_id, offset))`
(fingerprint.py line 213). -/
def ht_insert (h : Nat) (p : Nat × Nat) (ht : HashTable) : HashTable :=
  alist_update h (fun o => o.getD [] ++ [p]) ht

/-- The index mutation performed by `add_track` once the hash list of the
new track is known (fingerprint.py lines 193-194 and 211-218): allocate
the current counter as the id, bump the counter, append a posting for
every `(hash, offset)` pair, store the metadata under the id, return the
id.  (The source bumps the counter before running the pipeline; since the
pipeline does not read the counter the net state is the same.) -/
def add_track_core (db : FingerprintDB) (hashes : List (Nat × Nat)) (md : String) :
    FingerprintDB × Nat :=
  let track_id := db.next_track_id
  ({ hash_table := hashes.foldl (fun acc q => ht_insert q.1 (track_id, q.2) acc) db.hash_table,
     metadata := alist_update track_id (fun _ => md) db.metadata,
     next_track_id := track_id + 1 }, track_id)

/-- A sequence of completed `add_track` calls: returns the final state and
the list of ids handed out, in call order. -/
def add_track_seq : FingerprintDB → List (List (Nat × Nat) × String) → FingerprintDB × List Nat
  | db, [] => (db, [])
  | db, (hs, md) :: rest =>
    let r := add_track_core db hs md
    let rr := add_track_seq r.1 rest
    (rr.1, r.2 :: rr.2)

/-- One vote: `votes.setdefault(track_id, {}).setdefault(dt, 0);`
`votes[track_id][dt] += 1` (fingerprint.py lines 261-262). -/
def votes_add (votes : Votes) (track_id : Nat) (dt : Int) : Votes :=
  alist_update track_id (fun o => alist_update dt (fun c => c.getD 0 + 1) (o.getD [])) votes

/-- The vote-accumulation loop of `recognise` (fingerprint.py lines
254-262): for each query pair look up the postings of its token
(`if not matches: continue` skips both a missing key and an empty list)
and cast one vote per posting at offset `db_offset - offset`. -/
def accum_votes (ht : HashTable) : List (Nat × Nat) → Votes → Votes
  | [], votes => votes
  | (h, offset) :: rest, votes =>
    match alist_get ht h with
    | none => accum_votes ht rest votes
    | some ms =>
      if ms.isEmpty then accum_votes ht rest votes
      else accum_votes ht rest
        (ms.foldl (fun acc q => votes_add acc q.1 ((q.2 : Int) - (offset : Int))) votes)

/-- `score = max(offsets.values())` (fingerprint.py line 268).  Python's
`max` is over a nonempty dict here (every votes entry is created with one
count); folding `max` from 0 agrees with it on every nonempty list of
counts. -/
def score_of (offsets : List (Int × Nat)) : Nat :=
  offsets.foldl (fun acc q => max acc q.2) 0

/-- The best-track selection loop of `recognise` (fingerprint.py lines
264-271): scan the votes dict in insertion order keeping the first
strictly improving `(track, score)`. -/
def best_loop : Votes → Option Nat × Nat → Option Nat × Nat
  | [], best => best
  | (track_id, offsets) :: rest, (best_track, best_score) =>
    if best_score < score_of offsets then best_loop rest (some track_id, score_of offsets)
    else best_loop rest (best_track, best_score)

/-- `recognise` from the point where the query hash list is known
(fingerprint.py lines 253-272). -/
def recognise_core (ht : HashTable) (hashes : List (Nat × Nat)) : Option Nat × Nat :=
  best_loop (accum_votes ht hashes []) (none, 0)

/-- The error kinds named by the specification (§7).  No error of any of
these kinds is raised anywhere in fingerprint.py; the type exists so that
the absence can be stated. -/
inductive FpErrorKind
  | invalidInput
  | unsupportedFormat
  | indexIOError
deriving DecidableEq

/-- `FingerprintDB.add_track` (fingerprint.py lines 175-218) from the
decoded mono PCM buffer on: the body applies the constellation front end
(passed as `constellation`; floating-point STFT, external to this
embedding) and `_generate_hashes` at the source defaults, then mutates the
index.  The body contains no conditional on the sample rate or the buffer
length and no raise statement — its only branches are the channel-downmix
and dtype-scaling ones — so it always returns successfully. -/
def FingerprintDB.add_track (constellation : List Float → Int → List Peak)
    (db : FingerprintDB) (audio : List Float) (sr : Int) (md : String) :
    Except FpErrorKind (FingerprintDB × Nat) :=
  Except.ok (add_track_core db (generate_hashes 10 0 200 (constellation audio sr)) md)

/-- `FingerprintDB.recognise` (fingerprint.py lines 220-272) from the
decoded mono PCM buffer on; like `add_track` it validates nothing and
always returns a normal result. -/
def FingerprintDB.recognise (constellation : List Float → Int → List Peak)
    (db : FingerprintDB) (audio : List Float) (sr : Int) :
    Except FpErrorKind (Option Nat × Nat) :=
  Except.ok (recognise_core db.hash_table (generate_hashes 10 0 200 (constellation audio sr)))

/-- The payload pickled by `FingerprintDB.save` (fingerprint.py lines
278-283): the three fields. -/
structure SavedDB where
  hash_table : HashTable
  metadata : List (Nat × String)
  next_track_id : Nat
deriving DecidableEq

/-- `FingerprintDB.save` (fingerprint.py lines 274-283): serialise the
three fields.  Pickling itself is byte-level I/O; its faithfulness is the
collaborator contract, the saved value is the dict written. -/
def FingerprintDB.save (db : FingerprintDB) : SavedDB :=
  ⟨db.hash_table, db.metadata, db.next_track_id⟩

/-- `FingerprintDB.load` (fingerprint.py lines 285-296): construct a fresh
instance and overwrite its three fields with the loaded ones. -/
def FingerprintDB.load (s : SavedDB) : FingerprintDB :=
  { FingerprintDB.empty with
      hash_table := s.hash_table, metadata := s.metadata, next_track_id := s.next_track_id }

/-! ### Association-list lemmas -/

lemma alist_update_ne_nil {κ β : Type} [DecidableEq κ] (k : κ) (f : Option β → β)
    (l : List (κ × β)) : alist_update k f l ≠ [] := by
  cases l with
  | nil => simp [alist_update]
  | cons a rest =>
    obtain ⟨k', v⟩ := a
    simp only [alist_update]
    split <;> simp

lemma mem_alist_update {κ β : Type} [DecidableEq κ] {k : κ} {f : Option β → β} :
    ∀ {l : List (κ × β)} {x}, x ∈ alist_update k f l →
      x ∈ l ∨ x = (k, f none) ∨ ∃ v, (k, v) ∈ l ∧ x = (k, f (some v))
  | [], x, hx => by
    simp only [alist_update, List.mem_singleton] at hx
    exact Or.inr (Or.inl hx)
  | (k', v) :: rest, x, hx => by
    simp only [alist_update] at hx
    by_cases hk : k = k'
    · rw [if_pos hk] at hx
      rcases List.mem_cons.1 hx with h | h
      · exact Or.inr (Or.inr ⟨v, by simp [hk], by rw [h, hk]⟩)
      · exact Or.inl (List.mem_cons_of_mem _ h)
    · rw [if_neg hk] at hx
      rcases List.mem_cons.1 hx with h | h
      · exact Or.inl (h ▸ List.mem_cons_self _ _)
      · rcases mem_alist_update h with h1 | h2 | ⟨w, hw, hxw⟩
        · exact Or.inl (List.mem_cons_of_mem _ h1)
        · exact Or.inr (Or.inl h2)
        · exact Or.inr (Or.inr ⟨w, List.mem_cons_of_mem _ hw, hxw⟩)

lemma alist_update_contains {κ β : Type} [DecidableEq κ] (k : κ) (f : Option β → β) :
    ∀ l : List (κ × β), ∃ o, (k, f o) ∈ alist_update k f l
  | [] => ⟨none, by simp [alist_update]⟩
  | (k', v) :: rest => by
    by_cases hk : k = k'
    · exact ⟨some v, by simp [alist_update, if_pos hk, hk]⟩
    · obtain ⟨o, ho⟩ := alist_update_contains k f rest
      exact ⟨o, by simp [alist_update, if_neg hk, List.mem_cons_of_mem _ ho]⟩

lemma alist_get_update_self {κ β : Type} [DecidableEq κ] (k : κ) (f : Option β → β) :
    ∀ l : List (κ × β), alist_get (alist_update k f l) k = some (f (alist_get l k))
  | [] => by simp [alist_update, alist_get]
  | (k', v) :: rest => by
    by_cases hk : k = k'
    · simp [alist_update, alist_get, if_pos hk, hk]
    · have hne : ¬ (k = k') := hk
      simp only [alist_update, if_neg hne, alist_get, if_neg hne]
      exact alist_get_update_self k f rest

lemma alist_get_update_ne {κ β : Type} [DecidableEq κ] {k k' : κ} (f : Option β → β)
    (h : k' ≠ k) : ∀ l : List (κ × β), alist_get (alist_update k f l) k' = alist_get l k'
  | [] => by simp [alist_update, alist_get, h]
  | (a, v) :: rest => by
    by_cases ha : k = a
    · subst ha
      simp [alist_update, alist_get, h]
    · by_cases ha' : k' = a
      · simp [alist_update, if_neg ha, alist_get, ha']
      · simp only [alist_update, if_neg ha, alist_get, if_neg ha']
        exact alist_get_update_ne f h rest

lemma alist_get_mem {κ β : Type} [DecidableEq κ] :
    ∀ {l : List (κ × β)} {k : κ} {v : β}, alist_get l k = some v → (k, v) ∈ l
  | [], k, v, h => by simp [alist_get] at h
  | (k', w) :: rest, k, v, h => by
    by_cases hk : k = k'
    · simp only [alist_get, if_pos hk] at h
      injection h with h
      subst h
      subst hk
      exact List.mem_cons_self _ _
    · simp only [alist_get, if_neg hk] at h
      exact List.mem_cons_of_mem _ (alist_get_mem h)

/-! ### Bit-layout lemmas for the packed token -/

lemma mask12_lt (dt : Int) : mask12 dt < 4096 := by
  have h1 : 0 ≤ dt % 4096 := Int.emod_nonneg dt (by norm_num)
  have h2 : dt % 4096 < 4096 := Int.emod_lt_of_pos dt (by norm_num)
  unfold mask12
  omega

lemma testBit_1023 (i : Nat) : (1023 : Nat).testBit i = decide (i < 10) := by
  have h : (1023 : Nat) = 2 ^ 10 - 1 := by norm_num
  rw [h, Nat.testBit_two_pow_sub_one]

lemma testBit_4095 (i : Nat) : (4095 : Nat).testBit i = decide (i < 12) := by
  have h : (4095 : Nat) = 2 ^ 12 - 1 := by norm_num
  rw [h, Nat.testBit_two_pow_sub_one]

lemma and_1023_eq_mod (a : Nat) : a &&& 1023 = a % 1024 := by
  apply Nat.eq_of_testBit_eq
  intro i
  have hmod : (a % 1024).testBit i = (decide (i < 10) && a.testBit i) := by
    have h1024 : (1024 : Nat) = 2 ^ 10 := by norm_num
    rw [h1024, Nat.testBit_mod_two_pow]
  rw [hmod]
  simp [testBit_1023, Bool.and_comm]

lemma mask12_testBit_high (dt : Int) {i : Nat} (h : 12 ≤ i) :
    (mask12 dt).testBit i = false := by
  refine Nat.testBit_lt_two_pow ?_
  calc mask12 dt < 4096 := mask12_lt dt
  _ = 2 ^ 12 := by norm_num
  _ ≤ 2 ^ i := Nat.pow_le_pow_right (by norm_num) h

lemma hashToken_low (a t : Nat) (dt : Int) : hashToken a t dt &&& 4095 = mask12 dt := by
  apply Nat.eq_of_testBit_eq
  intro i
  by_cases hi : i < 12
  · have h22 : ¬ (22 ≤ i) := by omega
    have h12 : ¬ (12 ≤ i) := by omega
    simp [hashToken, testBit_4095, hi, h22, h12]
  · have hD : (mask12 dt).testBit i = false := mask12_testBit_high dt (by omega)
    simp [hashToken, testBit_4095, hi, hD]

lemma hashToken_high (a t : Nat) (dt : Int) : hashToken a t dt >>> 22 = a &&& 1023 := by
  apply Nat.eq_of_testBit_eq
  intro i
  have hD : (mask12 dt).testBit (22 + i) = false := mask12_testBit_high dt (by omega)
  have hT : ((t &&& 1023) <<< 12).testBit (22 + i) = false := by
    rw [Nat.testBit_shiftLeft]
    have h1 : 22 + i - 12 = 10 + i := by omega
    simp [h1, testBit_1023, show ¬ (10 + i < 10) by omega]
  rw [Nat.testBit_shiftRight]
  simp [hashToken, hD, hT, show (22 : Nat) ≤ 22 + i by omega,
    show 22 + i - 22 = i by omega]

lemma hashToken_mid (a t : Nat) (dt : Int) :
    (hashToken a t dt >>> 12) &&& 1023 = t &&& 1023 := by
  apply Nat.eq_of_testBit_eq
  intro i
  by_cases hi : i < 10
  · have hD : (mask12 dt).testBit (12 + i) = false := mask12_testBit_high dt (by omega)
    have hA : ((a &&& 1023) <<< 22).testBit (12 + i) = false := by
      rw [Nat.testBit_shiftLeft]
      simp [show ¬ (22 ≤ 12 + i) by omega]
    rw [Nat.testBit_and, Nat.testBit_shiftRight]
    simp [hashToken, hA, hD, testBit_1023, hi, show (12 : Nat) ≤ 12 + i by omega,
      show 12 + i - 12 = i by omega]
  · simp [testBit_1023, hi]

/-! ### Structure of the hash stream -/

lemma mem_insert_peak {p : Peak} :
    ∀ {l : List Peak} {x}, x ∈ insert_peak p l → x = p ∨ x ∈ l
  | [], x, hx => by
    simp only [insert_peak, List.mem_singleton] at hx
    exact Or.inl hx
  | q :: rest, x, hx => by
    simp only [insert_peak] at hx
    split at hx
    · rcases List.mem_cons.1 hx with h | h
      · exact Or.inl h
      · exact Or.inr h
    · rcases List.mem_cons.1 hx with h | h
      · exact Or.inr (h ▸ List.mem_cons_self _ _)
      · rcases mem_insert_peak h with h1 | h1
        · exact Or.inl h1
        · exact Or.inr (List.mem_cons_of_mem _ h1)

lemma mem_sort_peaks : ∀ {l : List Peak} {x}, x ∈ sort_peaks l → x ∈ l
  | [], x, hx => by simp [sort_peaks] at hx
  | p :: rest, x, hx => by
    simp only [sort_peaks] at hx
    rcases mem_insert_peak hx with h | h
    · exact h ▸ List.mem_cons_self _ _
    · exact List.mem_cons_of_mem _ (mem_sort_peaks h)

lemma mem_emit_for_anchor {min_dt max_dt : Int} {a : Peak} :
    ∀ {cands : List Peak} {fuel : Nat} {x},
      x ∈ emit_for_anchor min_dt max_dt a cands fuel →
      ∃ t ∈ cands, min_dt ≤ (t.1 : Int) - (a.1 : Int) ∧ (t.1 : Int) - (a.1 : Int) ≤ max_dt ∧
        x = (hashToken a.2 t.2 ((t.1 : Int) - (a.1 : Int)), a.1)
  | cands, 0, x, hx => by
    cases cands <;> simp [emit_for_anchor] at hx
  | [], _ + 1, x, hx => by simp [emit_for_anchor] at hx
  | t :: rest, fuel + 1, x, hx => by
    simp only [emit_for_anchor] at hx
    by_cases h1 : (t.1 : Int) - (a.1 : Int) < min_dt
    · rw [if_pos h1] at hx
      obtain ⟨u, hu, h⟩ := mem_emit_for_anchor hx
      exact ⟨u, List.mem_cons_of_mem _ hu, h⟩
    · rw [if_neg h1] at hx
      by_cases h2 : max_dt < (t.1 : Int) - (a.1 : Int)
      · rw [if_pos h2] at hx
        simp at hx
      · rw [if_neg h2] at hx
        rcases List.mem_cons.1 hx with h | h
        · exact ⟨t, List.mem_cons_self _ _, by omega, by omega, h⟩
        · obtain ⟨u, hu, hh⟩ := mem_emit_for_anchor h
          exact ⟨u, List.mem_cons_of_mem _ hu, hh⟩

lemma mem_gen_loop {fan : Nat} {min_dt max_dt : Int} :
    ∀ {l : List Peak} {x}, x ∈ gen_loop fan min_dt max_dt l →
      ∃ a ∈ l, ∃ t ∈ l,
        min_dt ≤ (t.1 : Int) - (a.1 : Int) ∧ (t.1 : Int) - (a.1 : Int) ≤ max_dt ∧
        x = (hashToken a.2 t.2 ((t.1 : Int) - (a.1 : Int)), a.1)
  | [], x, hx => by simp [gen_loop] at hx
  | a :: rest, x, hx => by
    simp only [gen_loop, List.mem_append] at hx
    rcases hx with hx | hx
    · obtain ⟨t, ht, h⟩ := mem_emit_for_anchor hx
      exact ⟨a, List.mem_cons_self _ _, t, List.mem_cons_of_mem _ ht, h⟩
    · obtain ⟨b, hb, t, ht, h⟩ := mem_gen_loop hx
      exact ⟨b, List.mem_cons_of_mem _ hb, t, List.mem_cons_of_mem _ ht, h⟩

lemma mem_generate_hashes {fan : Nat} {min_dt max_dt : Int} {ps : List Peak} {x}
    (hx : x ∈ generate_hashes fan min_dt max_dt ps) :
    ∃ a ∈ ps, ∃ t ∈ ps,
      min_dt ≤ (t.1 : Int) - (a.1 : Int) ∧ (t.1 : Int) - (a.1 : Int) ≤ max_dt ∧
      x = (hashToken a.2 t.2 ((t.1 : Int) - (a.1 : Int)), a.1) := by
  obtain ⟨a, ha, t, ht, h⟩ := mem_gen_loop (l := sort_peaks ps) hx
  exact ⟨a, mem_sort_peaks ha, t, mem_sort_peaks ht, h⟩

/-! ### Spec-side characterisation of the best-track scan

`max_from bs vs` is the running maximum of `best_score` over a suffix of
the votes dict, and `max_score` the maximum score over all candidate
tracks; they exist to state what `best_loop` returns. -/

def max_from : Nat → Votes → Nat
  | bs, [] => bs
  | bs, e :: rest => max_from (max bs (score_of e.2)) rest

/-- The largest `score(tid) = max over offsets of votes[tid][offset]`
over all candidate tracks (0 when there are none). -/
def max_score (vs : Votes) : Nat := max_from 0 vs

lemma le_max_from : ∀ (vs : Votes) (bs : Nat), bs ≤ max_from bs vs
  | [], bs => le_refl bs
  | _ :: rest, bs => le_trans (Nat.le_max_left _ _) (le_max_from rest _)

lemma score_le_max_from : ∀ (vs : Votes) (bs : Nat) {e}, e ∈ vs → score_of e.2 ≤ max_from bs vs
  | e' :: rest, bs, e, he => by
    rcases List.mem_cons.1 he with h | h
    · calc score_of e.2 ≤ max bs (score_of e'.2) := by rw [h]; exact Nat.le_max_right _ _
      _ ≤ max_from (max bs (score_of e'.2)) rest := le_max_from rest _
      _ = max_from bs (e' :: rest) := by simp [max_from]
    · calc score_of e.2 ≤ max_from (max bs (score_of e'.2)) rest := score_le_max_from rest _ h
      _ = max_from bs (e' :: rest) := by simp [max_from]

lemma best_loop_of_le : ∀ (vs : Votes) (bt : Option Nat) (bs : Nat),
    max_from bs vs ≤ bs → best_loop vs (bt, bs) = (bt, bs)
  | [], _, _, _ => rfl
  | (tid, offs) :: rest, bt, bs, h => by
    have hs : score_of offs ≤ bs :=
      le_trans (score_le_max_from ((tid, offs) :: rest) bs (List.mem_cons_self _ _)) h
    have hmax : max bs (score_of offs) = bs := Nat.max_eq_left hs
    simp only [best_loop, if_neg (by omega : ¬ bs < score_of offs)]
    apply best_loop_of_le
    have h' : max_from bs ((tid, offs) :: rest) = max_from bs rest := by
      simp [max_from, hmax]
    rw [← h']
    exact h

lemma best_loop_finds_max :
    ∀ (vs : Votes) (bt : Option Nat) (bs M : Nat), max_from bs vs = M → bs < M →
      ∃ e, vs.find? (fun q => decide (M ≤ score_of q.2)) = some e ∧
        best_loop vs (bt, bs) = (some e.1, M) ∧ score_of e.2 = M
  | [], _, bs, M, hM, hlt => by
    simp only [max_from] at hM
    exact absurd hlt (by omega)
  | (tid, offs) :: rest, bt, bs, M, hM, hlt => by
    by_cases hbs : bs < score_of offs
    · have hmax : max bs (score_of offs) = score_of offs := Nat.max_eq_right (le_of_lt hbs)
      have hM' : max_from (score_of offs) rest = M := by
        rw [← hM]; simp [max_from, hmax]
    
      by_cases hrest : max_from (score_of offs) rest ≤ score_of offs
      · have hsle : score_of offs ≤ M := hM' ▸ le_max_from rest (score_of offs)
        have hMs : M = score_of offs := le_antisymm (hM' ▸ hrest) hsle
        refine ⟨(tid, offs), ?_, ?_, by simp [hMs]⟩
        · rw [List.find?_cons_of_pos]
          simp [hMs]
        · simp only [best_loop, if_pos hbs]
          rw [best_loop_of_le rest _ (score_of offs) hrest, hMs]
      · push_neg at hrest
        have hsM : score_of offs < M := hM' ▸ hrest
        obtain ⟨e, hfind, hbl, hsc⟩ := best_loop_finds_max rest (some tid) (score_of offs) M hM' hsM
        refine ⟨e, ?_, ?_, hsc⟩
        · rw [List.find?_cons_of_neg _ (by simp only [decide_eq_true_eq]; omega)]
          exact hfind
        · simp only [best_loop, if_pos hbs]
          exact hbl
    · push_neg at hbs
      have hmax : max bs (score_of offs) = bs := Nat.max_eq_left hbs
      have hM' : max_from bs rest = M := by
        rw [← hM]; simp [max_from, hmax]
      have hsM : score_of offs < M := lt_of_le_of_lt hbs hlt
      obtain ⟨e, hfind, hbl, hsc⟩ := best_loop_finds_max rest bt bs M hM' hlt
      refine ⟨e, ?_, ?_, hsc⟩
      · rw [List.find?_cons_of_neg _ (by simp only [decide_eq_true_eq]; omega)]
        exact hfind
      · simp only [best_loop, if_neg (by omega : ¬ bs < score_of offs)]
        exact hbl

/-! ### Invariants of the vote accumulator -/

lemma foldl_max_le_init : ∀ (offs : List (Int × Nat)) (acc : Nat),
    acc ≤ offs.foldl (fun a q => max a q.2) acc
  | [], _ => le_refl _
  | _ :: rest, acc => le_trans (Nat.le_max_left _ _) (foldl_max_le_init rest _)

lemma count_le_foldl_max : ∀ (offs : List (Int × Nat)) (acc : Nat) {q},
    q ∈ offs → q.2 ≤ offs.foldl (fun a q => max a q.2) acc
  | q' :: rest, acc, q, hq => by
    rcases List.mem_cons.1 hq with h | h
    · simp only [List.foldl_cons]
      calc q.2 ≤ max acc q'.2 := by rw [h]; exact Nat.le_max_right _ _
      _ ≤ rest.foldl (fun a q => max a q.2) (max acc q'.2) := foldl_max_le_init rest _
    · simp only [List.foldl_cons]
      exact count_le_foldl_max rest _ h

lemma count_le_score_of {offs : List (Int × Nat)} {q} (hq : q ∈ offs) :
    q.2 ≤ score_of offs :=
  count_le_foldl_max offs 0 hq

lemma one_le_score_of_bump (dt : Int) (offs : List (Int × Nat)) :
    1 ≤ score_of (alist_update dt (fun c => c.getD 0 + 1) offs) := by
  obtain ⟨o, ho⟩ := alist_update_contains dt (fun c => c.getD 0 + 1) offs
  calc 1 ≤ o.getD 0 + 1 := by omega
  _ ≤ score_of _ := count_le_score_of ho

lemma votes_add_scores {votes : Votes} {tid : Nat} {dt : Int}
    (h : ∀ e ∈ votes, 1 ≤ score_of e.2) :
    ∀ e ∈ votes_add votes tid dt, 1 ≤ score_of e.2 := by
  intro e he
  rcases mem_alist_update he with h1 | h2 | ⟨v, _, hx⟩
  · exact h e h1
  · rw [h2]
    exact one_le_score_of_bump dt _
  · rw [hx]
    exact one_le_score_of_bump dt _

lemma foldl_votes_add_scores (offset : Nat) : ∀ (ms : Postings) (votes : Votes),
    (∀ e ∈ votes, 1 ≤ score_of e.2) →
    ∀ e ∈ ms.foldl (fun acc q => votes_add acc q.1 ((q.2 : Int) - (offset : Int))) votes,
      1 ≤ score_of e.2
  | [], _, h => h
  | _ :: rest, votes, h => by
    simp only [List.foldl_cons]
    exact foldl_votes_add_scores offset rest _ (votes_add_scores h)

lemma accum_votes_scores (ht : HashTable) : ∀ (hs : List (Nat × Nat)) (votes : Votes),
    (∀ e ∈ votes, 1 ≤ score_of e.2) →
    ∀ e ∈ accum_votes ht hs votes, 1 ≤ score_of e.2
  | [], _, h => h
  | (h0, offset) :: rest, votes, h => by
    simp only [accum_votes]
    cases halist : alist_get ht h0 with
    | none => exact accum_votes_scores ht rest votes h
    | some ms =>
      by_cases hms : ms.isEmpty
      · simp only [if_pos hms]
        exact accum_votes_scores ht rest votes h
      · simp only [if_neg hms]
        exact accum_votes_scores ht rest _ (foldl_votes_add_scores offset ms votes h)

lemma votes_add_ne_nil (votes : Votes) (tid : Nat) (dt : Int) :
    votes_add votes tid dt ≠ [] :=
  alist_update_ne_nil _ _ _

lemma foldl_votes_add_ne_nil (offset : Nat) : ∀ (ms : Postings) (votes : Votes),
    votes ≠ [] ∨ ms ≠ [] →
    ms.foldl (fun acc q => votes_add acc q.1 ((q.2 : Int) - (offset : Int))) votes ≠ []
  | [], votes, h => by
    rcases h with h | h
    · exact h
    · simp at h
  | _ :: rest, votes, _ => by
    simp only [List.foldl_cons]
    exact foldl_votes_add_ne_nil offset rest _ (Or.inl (votes_add_ne_nil _ _ _))

lemma accum_votes_ne_nil (ht : HashTable) : ∀ (hs : List (Nat × Nat)) (votes : Votes),
    votes ≠ [] → accum_votes ht hs votes ≠ []
  | [], _, h => h
  | (h0, offset) :: rest, votes, h => by
    simp only [accum_votes]
    cases halist : alist_get ht h0 with
    | none => exact accum_votes_ne_nil ht rest votes h
    | some ms =>
      by_cases hms : ms.isEmpty
      · simp only [if_pos hms]
        exact accum_votes_ne_nil ht rest votes h
      · simp only [if_neg hms]
        exact accum_votes_ne_nil ht rest _ (foldl_votes_add_ne_nil offset ms votes (Or.inl h))

lemma votes_add_keys {votes : Votes} {tid0 tid : Nat} {dt : Int}
    (h : ∀ e ∈ votes, e.1 = tid0) (htid : tid = tid0) :
    ∀ e ∈ votes_add votes tid dt, e.1 = tid0 := by
  intro e he
  rcases mem_alist_update he with h1 | h2 | ⟨v, _, hx⟩
  · exact h e h1
  · rw [h2, htid]
  · rw [hx, htid]

lemma foldl_votes_add_keys (offset tid0 : Nat) : ∀ (ms : Postings) (votes : Votes),
    (∀ p ∈ ms, p.1 = tid0) → (∀ e ∈ votes, e.1 = tid0) →
    ∀ e ∈ ms.foldl (fun acc q => votes_add acc q.1 ((q.2 : Int) - (offset : Int))) votes,
      e.1 = tid0
  | [], _, _, h => h
  | q :: rest, votes, hms, h => by
    simp only [List.foldl_cons]
    exact foldl_votes_add_keys offset tid0 rest _
      (fun p hp => hms p (List.mem_cons_of_mem _ hp))
      (votes_add_keys h (hms q (List.mem_cons_self _ _)))

lemma accum_votes_keys (ht : HashTable) (tid0 : Nat)
    (hht : ∀ k ps, (k, ps) ∈ ht → ∀ p ∈ ps, p.1 = tid0) :
    ∀ (hs : List (Nat × Nat)) (votes : Votes),
    (∀ e ∈ votes, e.1 = tid0) → ∀ e ∈ accum_votes ht hs votes, e.1 = tid0
  | [], _, h => h
  | (h0, offset) :: rest, votes, h => by
    simp only [accum_votes]
    cases halist : alist_get ht h0 with
    | none => exact accum_votes_keys ht tid0 hht rest votes h
    | some ms =>
      by_cases hms : ms.isEmpty
      · simp only [if_pos hms]
        exact accum_votes_keys ht tid0 hht rest votes h
      · simp only [if_neg hms]
        exact accum_votes_keys ht tid0 hht rest _
          (foldl_votes_add_keys offset tid0 ms votes (hht h0 ms (alist_get_mem halist)) h)

/-! ### Invariants of index insertion -/

lemma mem_foldl_ht_insert (tid : Nat) : ∀ (hs : List (Nat × Nat)) (ht : HashTable) {k ps},
    (k, ps) ∈ hs.foldl (fun acc q => ht_insert q.1 (tid, q.2) acc) ht →
    ∀ p ∈ ps, (∃ ps₀, (k, ps₀) ∈ ht ∧ p ∈ ps₀) ∨ p.1 = tid
  | [], _, k, ps, hmem => fun p hp => Or.inl ⟨ps, hmem, hp⟩
  | q :: rest, ht, k, ps, hmem => by
    intro p hp
    simp only [List.foldl_cons] at hmem
    rcases mem_foldl_ht_insert tid rest _ hmem p hp with ⟨ps₀, hps₀, hpin⟩ | htid
    · rcases mem_alist_update hps₀ with h1 | h2 | ⟨v, hv, hx⟩
      · exact Or.inl ⟨ps₀, h1, hpin⟩
      · injection h2 with hk hv'
        rw [hv'] at hpin
        simp only [Option.getD_none, List.nil_append, List.mem_singleton] at hpin
        exact Or.inr (by rw [hpin])
      · injection hx with hk hv'
        rw [hv'] at hpin
        rcases List.mem_append.1 hpin with hin | hin
        · refine Or.inl ⟨v, ?_, hin⟩
          rw [hk]
          exact hv
        · simp only [Option.getD_some, List.mem_singleton] at hin
          exact Or.inr (by rw [hin])
    · exact Or.inr htid

lemma get_ht_insert_self (h : Nat) (p : Nat × Nat) (ht : HashTable) :
    alist_get (ht_insert h p ht) h = some ((alist_get ht h).getD [] ++ [p]) :=
  alist_get_update_self h _ ht

lemma get_foldl_preserves (tid : Nat) : ∀ (hs : List (Nat × Nat)) (ht : HashTable) {h ps},
    alist_get ht h = some ps → ps ≠ [] →
    ∃ ps', alist_get (hs.foldl (fun acc q => ht_insert q.1 (tid, q.2) acc) ht) h = some ps' ∧
      ps' ≠ []
  | [], ht, h, ps, hget, hne => ⟨ps, hget, hne⟩
  | q :: rest, ht, h, ps, hget, hne => by
    simp only [List.foldl_cons]
    by_cases hq : h = q.1
    · subst hq
      refine get_foldl_preserves tid rest _ (get_ht_insert_self q.1 (tid, q.2) ht) ?_
      simp
    · exact get_foldl_preserves tid rest _
        (by rw [ht_insert, alist_get_update_ne _ hq ht]; exact hget) hne

lemma get_foldl_of_mem (tid : Nat) : ∀ (hs : List (Nat × Nat)) (ht : HashTable) {h t},
    (h, t) ∈ hs →
    ∃ ps', alist_get (hs.foldl (fun acc q => ht_insert q.1 (tid, q.2) acc) ht) h = some ps' ∧
      ps' ≠ []
  | (h0, t0) :: rest, ht, h, t, hmem => by
    simp only [List.foldl_cons]
    rcases List.mem_cons.1 hmem with heq | hmem'
    · injection heq with h1 h2
      subst h1
      refine get_foldl_preserves tid rest _ (get_ht_insert_self h (tid, t0) ht) ?_
      simp
    · exact get_foldl_of_mem tid rest _ hmem'

/-! ### Index coherence and id assignment -/

/-- Coherence between postings and metadata: every posting's track id is a
key of the metadata map. -/
def db_coherent (db : FingerprintDB) : Prop :=
  ∀ k ps, (k, ps) ∈ db.hash_table → ∀ p ∈ ps, ∃ md, alist_get db.metadata p.1 = some md

lemma add_track_core_coherent {db : FingerprintDB} (hc : db_coherent db)
    (hs : List (Nat × Nat)) (md : String) : db_coherent (add_track_core db hs md).1 := by
  intro k ps hmem p hp
  have hmem' : (k, ps) ∈ hs.foldl (fun acc q => ht_insert q.1 (db.next_track_id, q.2) acc)
      db.hash_table := hmem
  rcases mem_foldl_ht_insert db.next_track_id hs db.hash_table hmem' p hp with
    ⟨ps₀, hps₀, hpin⟩ | htid
  · obtain ⟨m, hm⟩ := hc k ps₀ hps₀ p hpin
    by_cases hcase : p.1 = db.next_track_id
    · refine ⟨md, ?_⟩
      show alist_get (alist_update db.next_track_id (fun _ => md) db.metadata) p.1 = some md
      rw [hcase]
      exact alist_get_update_self db.next_track_id (fun _ => md) db.metadata
    · refine ⟨m, ?_⟩
      show alist_get (alist_update db.next_track_id (fun _ => md) db.metadata) p.1 = some m
      rw [alist_get_update_ne _ hcase]
      exact hm
  · refine ⟨md, ?_⟩
    show alist_get (alist_update db.next_track_id (fun _ => md) db.metadata) p.1 = some md
    rw [htid]
    exact alist_get_update_self db.next_track_id (fun _ => md) db.metadata

lemma add_track_seq_coherent : ∀ (tracks : List (List (Nat × Nat) × String))
    (db : FingerprintDB), db_coherent db → db_coherent (add_track_seq db tracks).1
  | [], _, hc => hc
  | (hs, md) :: rest, db, hc => by
    simp only [add_track_seq]
    exact add_track_seq_coherent rest _ (add_track_core_coherent hc hs md)

lemma add_track_seq_ids : ∀ (tracks : List (List (Nat × Nat) × String)) (db : FingerprintDB),
    (add_track_seq db tracks).2 = List.range' db.next_track_id tracks.length
  | [], db => by simp [add_track_seq]
  | (hs, md) :: rest, db => by
    simp only [add_track_seq, List.length_cons, List.range'_succ]
    rw [add_track_seq_ids rest]
    rfl

lemma accum_votes_no_match (ht : HashTable) : ∀ (hs : List (Nat × Nat)) (votes : Votes),
    (∀ q ∈ hs, (alist_get ht q.1).getD [] = []) → accum_votes ht hs votes = votes
  | [], _, _ => rfl
  | (h0, offset) :: rest, votes, h => by
    have hrest : ∀ q ∈ rest, (alist_get ht q.1).getD [] = [] :=
      fun q hq => h q (List.mem_cons_of_mem _ hq)
    simp only [accum_votes]
    cases halist : alist_get ht h0 with
    | none => exact accum_votes_no_match ht rest votes hrest
    | some ms =>
      have hms : ms = [] := by
        have h2 := h (h0, offset) (List.mem_cons_self _ _)
        rw [halist] at h2
        simpa using h2
      subst hms
      exact accum_votes_no_match ht rest votes hrest

/-! ### Claims -/

/-- **C4.**  Every `(token, anchor_time)` pair emitted by the hasher comes
from an anchor peak `a` and a target peak `t` of the input whose time
delta `Δt = target_time - anchor_time` satisfies
`min_dt ≤ Δt ≤ max_dt` (`0 ≤ Δt ≤ 200` at the source defaults), and the
token is the packed hash of that pair. -/
theorem hasher_time_delta_bounds (fan : Nat) (min_dt max_dt : Int) (ps : List Peak)
    (x : Nat × Nat) (hx : x ∈ generate_hashes fan min_dt max_dt ps) :
    ∃ a ∈ ps, ∃ t ∈ ps,
      min_dt ≤ (t.1 : Int) - (a.1 : Int) ∧ (t.1 : Int) - (a.1 : Int) ≤ max_dt ∧
      x = (hashToken a.2 t.2 ((t.1 : Int) - (a.1 : Int)), a.1) :=
  mem_generate_hashes hx

/-- Witness for C4 at the defaults, on the peak list
`[(0,100),(5,200),(7,150)]` (scenario S6 of the specification): the pair
`(hashToken 100 200 5, 0)` is emitted and the theorem applies to it. -/
theorem hasher_time_delta_bounds_witness :
    ((hashToken 100 200 5, 0) ∈ generate_hashes 10 0 200 [(0, 100), (5, 200), (7, 150)]) ∧
    ∃ a ∈ ([(0, 100), (5, 200), (7, 150)] : List Peak),
      ∃ t ∈ ([(0, 100), (5, 200), (7, 150)] : List Peak),
      (0 : Int) ≤ (t.1 : Int) - (a.1 : Int) ∧ (t.1 : Int) - (a.1 : Int) ≤ 200 ∧
      (hashToken 100 200 5, (0 : Nat)) = (hashToken a.2 t.2 ((t.1 : Int) - (a.1 : Int)), a.1) :=
  ⟨by decide, hasher_time_delta_bounds 10 0 200 _ _ (by decide)⟩

/-- **C3.**  Every token emitted by the hasher satisfies the bit-layout
equations `token >>> 22 = anchor_freq &&& 0x3FF`,
`(token >>> 12) &&& 0x3FF = target_freq &&& 0x3FF` and
`token &&& 0xFFF = Δt &&& 0xFFF`; masking folds a frequency bin at or
above 1024 modulo 1024 (`f &&& 0x3FF = f % 1024`), it never clamps. -/
theorem token_bit_layout (ps : List Peak) (x : Nat × Nat)
    (hx : x ∈ generate_hashes 10 0 200 ps) :
    ∃ a ∈ ps, ∃ t ∈ ps, ∃ dt : Int,
      dt = (t.1 : Int) - (a.1 : Int) ∧
      x.1 = hashToken a.2 t.2 dt ∧
      x.1 >>> 22 = a.2 &&& 0x3FF ∧
      (x.1 >>> 12) &&& 0x3FF = t.2 &&& 0x3FF ∧
      x.1 &&& 0xFFF = mask12 dt ∧
      a.2 &&& 0x3FF = a.2 % 1024 ∧ t.2 &&& 0x3FF = t.2 % 1024 := by
  obtain ⟨a, ha, t, ht, _, _, hx1⟩ := mem_generate_hashes hx
  have h1 : x.1 = hashToken a.2 t.2 ((t.1 : Int) - (a.1 : Int)) := by rw [hx1]
  refine ⟨a, ha, t, ht, (t.1 : Int) - (a.1 : Int), rfl, h1, ?_, ?_, ?_,
    and_1023_eq_mod a.2, and_1023_eq_mod t.2⟩
  · rw [h1]
    exact hashToken_high a.2 t.2 _
  · rw [h1]
    exact hashToken_mid a.2 t.2 _
  · rw [h1]
    exact hashToken_low a.2 t.2 _

/-- Witness for C3 on the peak list `[(0,1500),(5,200)]`: the anchor
frequency 1500 lies above 1023 and its field in the emitted token is
`1500 % 1024 = 476`, i.e. folded, not clamped to 1023. -/
theorem token_bit_layout_witness :
    ((hashToken 1500 200 5, 0) ∈ generate_hashes 10 0 200 [(0, 1500), (5, 200)]) ∧
    ∃ a ∈ ([(0, 1500), (5, 200)] : List Peak), ∃ t ∈ ([(0, 1500), (5, 200)] : List Peak),
      ∃ dt : Int,
      dt = (t.1 : Int) - (a.1 : Int) ∧
      (hashToken 1500 200 5, (0 : Nat)).1 = hashToken a.2 t.2 dt ∧
      (hashToken 1500 200 5, (0 : Nat)).1 >>> 22 = a.2 &&& 0x3FF ∧
      ((hashToken 1500 200 5, (0 : Nat)).1 >>> 12) &&& 0x3FF = t.2 &&& 0x3FF ∧
      (hashToken 1500 200 5, (0 : Nat)).1 &&& 0xFFF = mask12 dt ∧
      a.2 &&& 0x3FF = a.2 % 1024 ∧ t.2 &&& 0x3FF = t.2 % 1024 :=
  ⟨by decide, token_bit_layout _ _ (by decide)⟩

/-- **C6.**  Persistence round-trip: loading a saved index reproduces the
index, structurally, on all three fields. -/
theorem save_load_roundtrip (db : FingerprintDB) :
    FingerprintDB.load (FingerprintDB.save db) = db := rfl

/-- **C7.**  Starting from a fresh index, successive completed `add_track`
calls hand out the ids `0, 1, 2, …` in call order: the id list equals
`List.range n`, so the n-th call (from 0) returns n, ids are contiguous
from 0, strictly increasing, and never reused. -/
theorem track_ids_sequential (tracks : List (List (Nat × Nat) × String)) :
    (add_track_seq FingerprintDB.empty tracks).2 = List.range tracks.length := by
  rw [List.range_eq_range']
  exact add_track_seq_ids tracks FingerprintDB.empty

/-- **C8.**  In every index state reachable from the empty index by
completed `add_track` calls, the track id of every posting of every token
is a key of the metadata map. -/
theorem postings_tid_in_metadata (tracks : List (List (Nat × Nat) × String))
    (k : Nat) (ps : Postings)
    (hmem : (k, ps) ∈ (add_track_seq FingerprintDB.empty tracks).1.hash_table)
    (p : Nat × Nat) (hp : p ∈ ps) :
    ∃ md, alist_get (add_track_seq FingerprintDB.empty tracks).1.metadata p.1 = some md :=
  add_track_seq_coherent tracks FingerprintDB.empty
    (by intro k ps h; simp [FingerprintDB.empty] at h) k ps hmem p hp

/-- Witness for C8: after adding one track with hash list `[(5,3)]`, the
posting `(0,3)` under token 5 has its track id 0 present in metadata. -/
theorem postings_tid_in_metadata_witness :
    ((5, [(0, 3)]) ∈ (add_track_seq FingerprintDB.empty [([(5, 3)], "a")]).1.hash_table) ∧
    ((0, 3) ∈ ([(0, 3)] : Postings)) ∧
    ∃ md, alist_get (add_track_seq FingerprintDB.empty [([(5, 3)], "a")]).1.metadata 0 =
      some md :=
  ⟨by decide, by decide, postings_tid_in_metadata [([(5, 3)], "a")] 5 [(0, 3)] (by decide)
    (0, 3) (by decide)⟩

/-- **C9.**  If no query token has a (nonempty) posting list in the index
— in particular, always, when the index is empty — the votes map stays
empty and `recognise` returns `(none, 0)`. -/
theorem no_match_returns_none (ht : HashTable) (hs : List (Nat × Nat))
    (h : ∀ q ∈ hs, (alist_get ht q.1).getD [] = []) :
    recognise_core ht hs = (none, 0) := by
  show best_loop (accum_votes ht hs []) (none, 0) = (none, 0)
  rw [accum_votes_no_match ht hs [] h]
  rfl

/-- Witness for C9: a query against the empty index returns `(none, 0)`. -/
theorem no_match_returns_none_witness :
    (∀ q ∈ ([(7, 3)] : List (Nat × Nat)), (alist_get ([] : HashTable) q.1).getD [] = []) ∧
    recognise_core [] [(7, 3)] = (none, 0) :=
  ⟨by decide, no_match_returns_none [] [(7, 3)] (by decide)⟩

/-- **C10.**  `recognise` returns either `(none, 0)` or `(some tid, s)`
with `s ≥ 1`: never a track id with score 0 and never `none` with a
positive score. -/
theorem recognise_none_or_positive (ht : HashTable) (hs : List (Nat × Nat)) :
    recognise_core ht hs = (none, 0) ∨
    ∃ tid s, recognise_core ht hs = (some tid, s) ∧ 1 ≤ s := by
  rcases Nat.eq_zero_or_pos (max_from 0 (accum_votes ht hs [])) with h0 | hpos
  · left
    show best_loop (accum_votes ht hs []) (none, 0) = (none, 0)
    exact best_loop_of_le _ none 0 (le_of_eq h0)
  · right
    obtain ⟨e, _, hbl, _⟩ := best_loop_finds_max (accum_votes ht hs []) none 0 _ rfl hpos
    exact ⟨e.1, max_from 0 (accum_votes ht hs []), hbl, hpos⟩

/-- **C2 (counterexample).**  The claim predicts that a tie in the maximal
score is broken towards the smallest track id.  Build the index by adding
track 0 with hash list `[(2,0)]` and track 1 with hash list `[(1,0)]`, and
query with `[(1,0),(2,0)]`: the query meets token 1 first, so track 1 is
the first key inserted into the votes dict.  Both tracks end with score 1
(the accumulated votes are shown in the second conjunct), yet `recognise`
returns track 1, not the smaller tied id 0. -/
theorem recognise_tie_not_smallest_tid :
    recognise_core
      ((add_track_core (add_track_core FingerprintDB.empty [(2, 0)] "a").1
        [(1, 0)] "b").1).hash_table [(1, 0), (2, 0)] = (some 1, 1) ∧
    accum_votes
      ((add_track_core (add_track_core FingerprintDB.empty [(2, 0)] "a").1
        [(1, 0)] "b").1).hash_table [(1, 0), (2, 0)] [] = [(1, [(0, 1)]), (0, [(0, 1)])] :=
  ⟨rfl, rfl⟩

/-- **C2 (amended).**  `recognise` computes for each candidate track the
score `max over offsets of votes[tid][offset]` and returns the pair with
the largest score; a tie is broken in favour of the candidate that
appears first in the votes dict — the first track to receive a vote
during the scan — which need not be the smallest track id.  The votes
dict is empty exactly when `(none, 0)` is returned. -/
theorem recognise_returns_first_max (ht : HashTable) (hs : List (Nat × Nat)) :
    recognise_core ht hs =
      match (accum_votes ht hs []).find?
          (fun q => decide (max_score (accum_votes ht hs []) ≤ score_of q.2)) with
      | none => (none, 0)
      | some e => (some e.1, score_of e.2) := by
  rcases Nat.eq_zero_or_pos (max_from 0 (accum_votes ht hs [])) with h0 | hpos
  · have hnil : accum_votes ht hs [] = [] := by
      by_contra hne
      obtain ⟨e, he⟩ := List.exists_mem_of_ne_nil _ hne
      have h1 := accum_votes_scores ht hs [] (by simp) e he
      have h2 := score_le_max_from (accum_votes ht hs []) 0 he
      omega
    have hLHS : recognise_core ht hs = (none, 0) := by
      show best_loop (accum_votes ht hs []) (none, 0) = (none, 0)
      rw [hnil]
      rfl
    rw [hLHS, hnil]
    rfl
  · obtain ⟨e, hfind, hbl, hsc⟩ :=
      best_loop_finds_max (accum_votes ht hs []) none 0 _ rfl hpos
    have hLHS : recognise_core ht hs = (some e.1, max_from 0 (accum_votes ht hs [])) := hbl
    rw [hLHS]
    simp only [max_score]
    rw [hfind]
    show (some e.1, max_from 0 (accum_votes ht hs [])) = (some e.1, score_of e.2)
    rw [hsc]

lemma accum_votes_head_ne_nil (ht : HashTable) (h0 t0 : Nat) (rest : List (Nat × Nat))
    {ms : Postings} (hget : alist_get ht h0 = some ms) (hne : ms ≠ []) :
    accum_votes ht ((h0, t0) :: rest) [] ≠ [] := by
  simp only [accum_votes, hget]
  rw [if_neg (by simpa [List.isEmpty_iff] using hne)]
  exact accum_votes_ne_nil ht rest _ (foldl_votes_add_ne_nil t0 ms [] (Or.inr hne))

/-- Self-recognition against a fresh single-track index, at the level of
the shared hash list: adding a nonempty hash list `hs` to the empty index
(track id 0) and querying with the same `hs` yields `(some 0, s)` with a
positive score. -/
lemma self_recognition_core (hs : List (Nat × Nat)) (md : String) (hne : hs ≠ []) :
    ∃ s, recognise_core (add_track_core FingerprintDB.empty hs md).1.hash_table hs =
      (some 0, s) ∧ 0 < s := by
  obtain ⟨h0, t0, rest, hhs⟩ : ∃ h0 t0 rest, hs = (h0, t0) :: rest := by
    cases hs with
    | nil => exact absurd rfl hne
    | cons q rest => exact ⟨q.1, q.2, rest, by simp⟩
  subst hhs
  have hkeys : ∀ k ps,
      (k, ps) ∈ (add_track_core FingerprintDB.empty ((h0, t0) :: rest) md).1.hash_table →
      ∀ p ∈ ps, p.1 = 0 := by
    intro k ps hmem p hp
    rcases mem_foldl_ht_insert 0 ((h0, t0) :: rest) [] hmem p hp with ⟨ps₀, hps₀, _⟩ | htid
    · simp at hps₀
    · exact htid
  obtain ⟨ms, hget, hmsne⟩ := get_foldl_of_mem 0 ((h0, t0) :: rest) ([] : HashTable)
    (List.mem_cons_self (h0, t0) rest)
  have hvne : accum_votes (add_track_core FingerprintDB.empty ((h0, t0) :: rest) md).1.hash_table
      ((h0, t0) :: rest) [] ≠ [] :=
    accum_votes_head_ne_nil _ h0 t0 rest hget hmsne
  have hscores := accum_votes_scores
    (add_track_core FingerprintDB.empty ((h0, t0) :: rest) md).1.hash_table
    ((h0, t0) :: rest) [] (by simp)
  have hkeys' := accum_votes_keys
    (add_track_core FingerprintDB.empty ((h0, t0) :: rest) md).1.hash_table 0 hkeys
    ((h0, t0) :: rest) [] (by simp)
  have hpos : 0 < max_from 0
      (accum_votes (add_track_core FingerprintDB.empty ((h0, t0) :: rest) md).1.hash_table
        ((h0, t0) :: rest) []) := by
    obtain ⟨e, he⟩ := List.exists_mem_of_ne_nil _ hvne
    have h1 := hscores e he
    have h2 := score_le_max_from
      (accum_votes (add_track_core FingerprintDB.empty ((h0, t0) :: rest) md).1.hash_table
        ((h0, t0) :: rest) []) 0 he
    omega
  obtain ⟨e, hfind, hbl, _⟩ := best_loop_finds_max
    (accum_votes (add_track_core FingerprintDB.empty ((h0, t0) :: rest) md).1.hash_table
      ((h0, t0) :: rest) []) none 0 _ rfl hpos
  have he1 : e.1 = 0 := hkeys' e (List.mem_of_find?_eq_some hfind)
  refine ⟨max_from 0
    (accum_votes (add_track_core FingerprintDB.empty ((h0, t0) :: rest) md).1.hash_table
      ((h0, t0) :: rest) []), ?_, hpos⟩
  rw [he1] at hbl
  exact hbl

/-- **C1 (counterexample).**  Two failing instances of the
self-recognition claim, spelled end to end through `add_track` and
`recognise` with the constellation front end as argument.
First, a waveform whose constellation is empty (e.g. digital silence: a
constant spectrogram has no cell above the −50 dB floor, so no peaks and
no hashes): after `add_track` assigns it id 0, `recognise` on the same
waveform returns `(none, 0)`, not id 0 with a positive score.
Second, the same waveform added twice (constellation `[(0,5),(1,7)]`,
one hash): the second copy is assigned id 1 (third conjunct), yet
`recognise` on that waveform returns `(some 0, 1)` — track 0 ties at
score 1 and received its vote first — not id 1. -/
theorem self_recognition_ce :
    (FingerprintDB.add_track (fun _ _ => []) FingerprintDB.empty [] 44100 "t" =
      Except.ok (⟨[], [(0, "t")], 1⟩, 0)) ∧
    (FingerprintDB.recognise (fun _ _ => []) ⟨[], [(0, "t")], 1⟩ [] 44100 =
      Except.ok (none, 0)) ∧
    (FingerprintDB.add_track (fun _ _ => [(0, 5), (1, 7)]) FingerprintDB.empty
        [] 44100 "a" =
      Except.ok (⟨[(hashToken 5 7 1, [(0, 0)])], [(0, "a")], 1⟩, 0)) ∧
    (FingerprintDB.add_track (fun _ _ => [(0, 5), (1, 7)])
        ⟨[(hashToken 5 7 1, [(0, 0)])], [(0, "a")], 1⟩ [] 44100 "b" =
      Except.ok (⟨[(hashToken 5 7 1, [(0, 0), (1, 0)])], [(0, "a"), (1, "b")], 2⟩, 1)) ∧
    (FingerprintDB.recognise (fun _ _ => [(0, 5), (1, 7)])
        ⟨[(hashToken 5 7 1, [(0, 0), (1, 0)])], [(0, "a"), (1, "b")], 2⟩ [] 44100 =
      Except.ok (some 0, 1)) :=
  ⟨rfl, rfl, rfl, rfl, rfl⟩

/-- **C1 (amended).**  Self-recognition holds for a fresh single-track
index and a waveform whose fingerprint is nonempty: after `add_track` of
the waveform into the empty index returns id `tid`, `recognise` of the
same waveform returns `(some tid, s)` with `s > 0`.  (With other tracks
present, the returned score is still the maximal score — see the C2
theorem — but the returned id can be an earlier-voted track that ties
`tid`; with an empty fingerprint `recognise` returns `(none, 0)`.) -/
theorem self_recognition_fresh_index (constellation : List Float → Int → List Peak)
    (audio : List Float) (sr : Int) (md : String) (db1 : FingerprintDB) (tid : Nat)
    (hne : generate_hashes 10 0 200 (constellation audio sr) ≠ [])
    (hadd : FingerprintDB.add_track constellation FingerprintDB.empty audio sr md =
      Except.ok (db1, tid)) :
    ∃ s, FingerprintDB.recognise constellation db1 audio sr = Except.ok (some tid, s) ∧
      0 < s := by
  have h1 : add_track_core FingerprintDB.empty
      (generate_hashes 10 0 200 (constellation audio sr)) md = (db1, tid) :=
    Except.ok.inj hadd
  have hdb : (add_track_core FingerprintDB.empty
      (generate_hashes 10 0 200 (constellation audio sr)) md).1 = db1 :=
    congrArg Prod.fst h1
  have htid : (0 : Nat) = tid := congrArg Prod.snd h1
  obtain ⟨s, hrec, hspos⟩ :=
    self_recognition_core (generate_hashes 10 0 200 (constellation audio sr)) md hne
  refine ⟨s, ?_, hspos⟩
  show Except.ok (recognise_core db1.hash_table
    (generate_hashes 10 0 200 (constellation audio sr))) = Except.ok (some tid, s)
  rw [← hdb, ← htid, hrec]

/-- Witness for the amended C1: the waveform with constellation
`[(0,5),(1,7)]` (one hash) is added to the empty index as track 0 and
then recognised as track 0 with a positive score. -/
theorem self_recognition_fresh_index_witness :
    (generate_hashes 10 0 200 [(0, 5), (1, 7)] ≠ []) ∧
    (FingerprintDB.add_track (fun _ _ => [(0, 5), (1, 7)]) FingerprintDB.empty
        [] 44100 "a" =
      Except.ok (⟨[(hashToken 5 7 1, [(0, 0)])], [(0, "a")], 1⟩, 0)) ∧
    ∃ s, FingerprintDB.recognise (fun _ _ => [(0, 5), (1, 7)])
        ⟨[(hashToken 5 7 1, [(0, 0)])], [(0, "a")], 1⟩ [] 44100 =
      Except.ok (some 0, s) ∧ 0 < s :=
  ⟨by decide, rfl,
    self_recognition_fresh_index (fun _ _ => [(0, 5), (1, 7)]) [] 44100 "a"
      ⟨[(hashToken 5 7 1, [(0, 0)])], [(0, "a")], 1⟩ 0 (by decide) rfl⟩

/-- **C5 (counterexample).**  `add_track` and `recognise` do not fail on
any of the three conditions the claim names; there is no validation code
and no InvalidInput-kind error anywhere in fingerprint.py.  The three
conjuncts exercise: a buffer of 1000 samples — fewer than one 4096-sample
STFT window — at a valid rate (scipy's STFT zero-pads short input, so the
pipeline yields a peak list, here the empty one); a negative sample rate,
which no code path inspects; and an empty buffer at rate 0.  Each call
returns a normal `Except.ok` result — `add_track` even hands out a fresh
track id — instead of failing. -/
theorem no_input_validation_ce :
    (FingerprintDB.add_track (fun _ _ => []) FingerprintDB.empty
        (List.replicate 1000 (0.0 : Float)) 44100 "t" =
      Except.ok (⟨[], [(0, "t")], 1⟩, 0)) ∧
    (FingerprintDB.recognise (fun _ _ => []) FingerprintDB.empty
        (List.replicate 5000 (0.0 : Float)) (-1) = Except.ok (none, 0)) ∧
    (FingerprintDB.add_track (fun _ _ => []) FingerprintDB.empty ([] : List Float) 0 "t" =
      Except.ok (⟨[], [(0, "t")], 1⟩, 0)) :=
  ⟨rfl, rfl, rfl⟩

/-- **C5 (amended).**  `add_track` and `recognise` perform no input
validation at all: whatever the buffer (empty, shorter than one window)
and the sample rate (zero or negative), the decoded input is handed to
the pipeline unchecked and both calls return a normal `Except.ok` result.
No InvalidInput-kind error is ever raised by the core; the only
conceivable failures are incidental ones inside the external decode/FFT
collaborators (e.g. `1/fs` at `fs = 0` inside scipy), which are not
errors of that designed kind. -/
theorem add_track_recognise_never_error (constellation : List Float → Int → List Peak)
    (db : FingerprintDB) (audio : List Float) (sr : Int) (md : String) :
    (∃ r, FingerprintDB.add_track constellation db audio sr md = Except.ok r) ∧
    (∃ r, FingerprintDB.recognise constellation db audio sr = Except.ok r) :=
  ⟨⟨_, rfl⟩, ⟨_, rfl⟩⟩
